import Mathlib

/-!
Shallow embedding of the vinculum lock-free deduplication library
(src/src/lib.rs and src/src/sync.rs).

Modelling conventions:
* Rust `HashSet` becomes `Finset` (with `DecidableEq`); the unspecified
  iteration order of `fossil_candidates()` is realised by `Finset.sort`
  over a linear order on chunk identifiers.
* Rust fallible iterators (`chunks()`, `archives()`, `clients()`) become
  `List (Except e α)`; a loop over such an iterator short-circuits at the
  first `Except.error` entry, exactly as `?` does in the source.
* `Instant` becomes `Nat` (a monotonic clock reading).
* The `&mut self` repository mutations of `delete_fossils`
  (`recover_fossil` / `delete_fossil`) are recorded in an explicit trace of
  `FossilAction`s so that theorems can speak about which calls were issued.
-/

instance {Ea Ch : Type} [DecidableEq Ea] [DecidableEq Ch] :
    DecidableEq (Except Ea Ch) := fun x y =>
  match x, y with
  | Except.error a, Except.error b => decidable_of_iff (a = b) (by simp)
  | Except.error _, Except.ok _ => isFalse (fun hc => Except.noConfusion hc)
  | Except.ok _, Except.error _ => isFalse (fun hc => Except.noConfusion hc)
  | Except.ok c, Except.ok d => decidable_of_iff (c = d) (by simp)

/-- Archive metadata together with its chunk enumeration
(Rust traits `Archive`, lib.rs:23-35, and `SyncArchive`, sync.rs:10-22):
a creator `ClientID`, a creation `Instant` and the fallible chunk iterator. -/
structure SyncArchive (Cl Ch Ea : Type) where
  creator : Cl
  creation_timestamp : Nat
  chunks : List (Except Ea Ch)

/-- Rust `Archive::into_creator` (lib.rs:34): consume the archive, returning its creator. -/
def SyncArchive.into_creator {Cl Ch Ea : Type} (a : SyncArchive Cl Ch Ea) : Cl :=
  a.creator

/-- The repository capability (Rust trait `SyncRepository`, sync.rs:28-84).
`make_fossil`, `recover_fossil` and `delete_fossil` are modelled by their
result; the mutation they perform on storage is not observable through the
trait, and for `delete_fossils` the calls issued are recorded separately.
`original_chunk` is the `Fossil` trait method (lib.rs:69) of the
repository's `FossilID` type. -/
structure SyncRepository (Cl Ch Aid F Er Ea : Type) where
  clients : List (Except Er Cl)
  archives : List (Except Er Aid)
  archive : Aid → Except Er (SyncArchive Cl Ch Ea)
  make_fossil : Ch → Except Er F
  recover_fossil : F → Except Er Unit
  delete_fossil : F → Except Er Unit
  original_chunk : F → Ch

/-- Rust `FossilCollection` (lib.rs:80-86): an immutable manifest of one
collection pass. -/
structure FossilCollection (F Aid : Type) where
  collection_timestamp : Nat
  fossils : List F
  seen_archives : List Aid
deriving DecidableEq

/-- Rust `FossilCollection::with_timestamp` (lib.rs:105-115). -/
def FossilCollection.with_timestamp {F Aid : Type} (t : Nat) (fossils : List F)
    (seen : List Aid) : FossilCollection F Aid :=
  ⟨t, fossils, seen⟩

/-- Rust `ValidClients` (lib.rs:198-202): the set of clients known to have
created an archive after the bound collection timestamp. -/
structure ValidClients (Cl : Type) [DecidableEq Cl] where
  collection_timestamp : Nat
  clients : Finset Cl

/-- Rust `ValidClients::new` (lib.rs:208-213). -/
def ValidClients.new {Cl : Type} [DecidableEq Cl] (t : Nat) : ValidClients Cl :=
  ⟨t, ∅⟩

/-- Rust `ValidClients::contains` (lib.rs:241-243). -/
def ValidClients.contains {Cl : Type} [DecidableEq Cl] (vc : ValidClients Cl)
    (value : Cl) : Prop :=
  value ∈ vc.clients

instance {Cl : Type} [DecidableEq Cl] (vc : ValidClients Cl) (value : Cl) :
    Decidable (vc.contains value) :=
  inferInstanceAs (Decidable (value ∈ vc.clients))

/-- Rust `ValidClients::add_owned_archive` (lib.rs:249-256): insert the creator
(via `into_creator`) when the archive was created strictly after the
collection timestamp. -/
def ValidClients.add_owned_archive {Cl Ch Ea : Type} [DecidableEq Cl]
    (vc : ValidClients Cl) (archive : SyncArchive Cl Ch Ea) : ValidClients Cl :=
  if archive.creation_timestamp > vc.collection_timestamp then
    { vc with clients := insert archive.into_creator vc.clients }
  else vc

/-- Rust `ValidClients::add_borrowed_archive` (lib.rs:264-271): same test, but
reads the creator through the borrowing accessor `creator`. -/
def ValidClients.add_borrowed_archive {Cl Ch Ea : Type} [DecidableEq Cl]
    (vc : ValidClients Cl) (archive : SyncArchive Cl Ch Ea) : ValidClients Cl :=
  if archive.creation_timestamp > vc.collection_timestamp then
    { vc with clients := insert archive.creator vc.clients }
  else vc

/-- Rust `FossilCollector` (lib.rs:322-326): the two working sets of chunk IDs. -/
structure FossilCollector (Ch : Type) [DecidableEq Ch] where
  referenced_chunks : Finset Ch
  unreferenced_chunks : Finset Ch

/-- Rust `FossilCollector::new` (lib.rs:338-343). -/
def FossilCollector.new {Ch : Type} [DecidableEq Ch] : FossilCollector Ch :=
  ⟨∅, ∅⟩

/-- Rust `FossilCollector::add_reference` (lib.rs:369-372): remove the chunk from
the unreferenced set and insert it into the referenced set. -/
def FossilCollector.add_reference {Ch : Type} [DecidableEq Ch]
    (col : FossilCollector Ch) (chunk : Ch) : FossilCollector Ch :=
  { referenced_chunks := insert chunk col.referenced_chunks
    unreferenced_chunks := col.unreferenced_chunks.erase chunk }

/-- Rust `FossilCollector::add_chunk` (lib.rs:377-381): insert into the
unreferenced set only when the chunk is not already referenced. -/
def FossilCollector.add_chunk {Ch : Type} [DecidableEq Ch]
    (col : FossilCollector Ch) (chunk : Ch) : FossilCollector Ch :=
  if chunk ∈ col.referenced_chunks then col
  else { col with unreferenced_chunks := insert chunk col.unreferenced_chunks }

/-- Enumerate a finite set as a sorted list (insertion sort lifted through
the multiset quotient, so that it evaluates by kernel reduction). -/
def sortedList {Ch : Type} [LinearOrder Ch] (s : Finset Ch) : List Ch :=
  Quot.liftOn s.val (fun l => l.insertionSort (fun x y => x ≤ y))
    (fun l₁ l₂ hp =>
      List.eq_of_perm_of_sorted
        ((List.perm_insertionSort _ l₁).trans
          (List.Perm.trans hp (List.perm_insertionSort _ l₂).symm))
        (List.sorted_insertionSort _ l₁) (List.sorted_insertionSort _ l₂))

/-- Rust `FossilCollector::fossil_candidates` (lib.rs:355-359): an enumeration of
the unreferenced set in an arbitrary order, realised here by sorting. -/
def FossilCollector.fossil_candidates {Ch : Type} [DecidableEq Ch] [LinearOrder Ch]
    (col : FossilCollector Ch) : List Ch :=
  sortedList col.unreferenced_chunks

/-- Rust `FossilCollector::retain_archive` (sync.rs:94-102): feed every chunk of
the iterator through `add_reference`, stopping at the first enumeration
error; the collector state built so far is kept either way. -/
def FossilCollector.retain_archive {Ch Ea : Type} [DecidableEq Ch] :
    FossilCollector Ch → List (Except Ea Ch) → FossilCollector Ch × Option Ea
  | col, [] => (col, none)
  | col, Except.error e :: _ => (col, some e)
  | col, Except.ok c :: rest => FossilCollector.retain_archive (col.add_reference c) rest

/-- Rust `FossilCollector::prune_archive` (sync.rs:108-116): feed every chunk of
the iterator through `add_chunk`, stopping at the first enumeration error. -/
def FossilCollector.prune_archive {Ch Ea : Type} [DecidableEq Ch] :
    FossilCollector Ch → List (Except Ea Ch) → FossilCollector Ch × Option Ea
  | col, [] => (col, none)
  | col, Except.error e :: _ => (col, some e)
  | col, Except.ok c :: rest => FossilCollector.prune_archive (col.add_chunk c) rest

/-- Rust `FossilCollectionError` (lib.rs:432-438). -/
inductive FossilCollectionError (Er Ea : Type)
  | repository (e : Er)
  | archive (e : Ea)
deriving DecidableEq

/-- Rust `FossilDeletionError` (lib.rs:465-474). -/
inductive FossilDeletionError (Er Ea : Type)
  | uncollectible
  | repository (e : Er)
  | archive (e : Ea)
deriving DecidableEq

/-- A repository mutation issued by `delete_fossils`: either
`recover_fossil` or `delete_fossil` on a fossil of the collection. -/
inductive FossilAction (F : Type)
  | recover (f : F)
  | delete (f : F)
deriving DecidableEq

/-- The first loop of `collect_fossils` (sync.rs:143-146): push each kept
archive's ID onto the seen list, then retain the archive, propagating the
first enumeration error. -/
def collect_kept {Cl Ch Aid Ea : Type} [DecidableEq Ch] :
    FossilCollector Ch → List Aid → List (Aid × SyncArchive Cl Ch Ea) →
      FossilCollector Ch × List Aid × Option Ea
  | col, seen, [] => (col, seen, none)
  | col, seen, (aid, a) :: rest =>
    match col.retain_archive a.chunks with
    | (col', some e) => (col', seen ++ [aid], some e)
    | (col', none) => collect_kept col' (seen ++ [aid]) rest

/-- The second loop of `collect_fossils` (sync.rs:147-149): prune each
pruned archive, propagating the first enumeration error. -/
def prune_all {Cl Ch Ea : Type} [DecidableEq Ch] :
    FossilCollector Ch → List (SyncArchive Cl Ch Ea) →
      FossilCollector Ch × Option Ea
  | col, [] => (col, none)
  | col, a :: rest =>
    match col.prune_archive a.chunks with
    | (col', some e) => (col', some e)
    | (col', none) => prune_all col' rest

/-- The `collect::<Result<_, _>>()` over `make_fossil` calls
(sync.rs:150-154): fossilise each candidate in order, stopping at the first
repository error. -/
def map_fossils {Ch F Er : Type} (mk : Ch → Except Er F) :
    List Ch → Except Er (List F)
  | [] => Except.ok []
  | c :: rest =>
    match mk c with
    | Except.error e => Except.error e
    | Except.ok f =>
      match map_fossils mk rest with
      | Except.error e => Except.error e
      | Except.ok fs => Except.ok (f :: fs)

/-- Rust `collect_fossils` (sync.rs:126-159). The `Instant::now()` read inside
`FossilCollection::new` (lib.rs:95-97) is modelled by the explicit clock
sample `now`. -/
def collect_fossils {Cl Ch Aid F Er Ea : Type} [DecidableEq Ch] [LinearOrder Ch]
    (kept_archives : List (Aid × SyncArchive Cl Ch Ea))
    (pruned_archives : List (SyncArchive Cl Ch Ea))
    (repository : SyncRepository Cl Ch Aid F Er Ea) (now : Nat) :
    Except (FossilCollectionError Er Ea) (FossilCollection F Aid) :=
  match collect_kept FossilCollector.new [] kept_archives with
  | (_, _, some e) => Except.error (FossilCollectionError.archive e)
  | (col, seen, none) =>
    match prune_all col pruned_archives with
    | (_, some e) => Except.error (FossilCollectionError.archive e)
    | (col', none) =>
      match map_fossils repository.make_fossil col'.fossil_candidates with
      | Except.error e => Except.error (FossilCollectionError.repository e)
      | Except.ok fossils => Except.ok (FossilCollection.with_timestamp now fossils seen)

/-- The chunk loop of `delete_fossils` (sync.rs:184-187): insert every chunk
of a fetched archive into `new_referenced_chunks`, propagating the first
enumeration error. -/
def collect_chunks {Ch Ea : Type} [DecidableEq Ch] :
    Finset Ch → List (Except Ea Ch) → Except Ea (Finset Ch)
  | acc, [] => Except.ok acc
  | _, Except.error e :: _ => Except.error e
  | acc, Except.ok c :: rest => collect_chunks (insert c acc) rest

/-- The archive scan of `delete_fossils` (sync.rs:178-190): for each archive
ID outside the seen set, fetch the archive, collect its chunks and feed the
owned archive to the witness. -/
def scan_archives {Cl Ch Aid F Er Ea : Type} [DecidableEq Cl] [DecidableEq Ch]
    [DecidableEq Aid] (repository : SyncRepository Cl Ch Aid F Er Ea)
    (seen : Finset Aid) :
    List (Except Er Aid) → Finset Ch → ValidClients Cl →
      Except (FossilDeletionError Er Ea) (Finset Ch × ValidClients Cl)
  | [], newRef, vc => Except.ok (newRef, vc)
  | Except.error e :: _, _, _ => Except.error (FossilDeletionError.repository e)
  | Except.ok aid :: rest, newRef, vc =>
    if aid ∈ seen then scan_archives repository seen rest newRef vc
    else
      match repository.archive aid with
      | Except.error e => Except.error (FossilDeletionError.repository e)
      | Except.ok a =>
        match collect_chunks newRef a.chunks with
        | Except.error e => Except.error (FossilDeletionError.archive e)
        | Except.ok newRef' =>
          scan_archives repository seen rest newRef' (vc.add_owned_archive a)

/-- The client quiescence check of `delete_fossils` (sync.rs:191-196):
return the first failure (a repository error, or `Uncollectible` for a
client missing from the witness), `none` when every client passes. -/
def check_clients {Cl Er Ea : Type} [DecidableEq Cl] (vc : ValidClients Cl) :
    List (Except Er Cl) → Option (FossilDeletionError Er Ea)
  | [] => none
  | Except.error e :: _ => some (FossilDeletionError.repository e)
  | Except.ok c :: rest =>
    if vc.contains c then check_clients vc rest
    else some FossilDeletionError.uncollectible

/-- The fossil resolution loop of `delete_fossils` (sync.rs:197-207):
recover fossils whose original chunk became referenced again, delete the
others; the list records the calls issued, the failing call included. -/
def process_fossils {Cl Ch Aid F Er Ea : Type} [DecidableEq Ch]
    (repository : SyncRepository Cl Ch Aid F Er Ea) (newRef : Finset Ch) :
    List F → Except (FossilDeletionError Er Ea) Unit × List (FossilAction F)
  | [] => (Except.ok (), [])
  | f :: rest =>
    if repository.original_chunk f ∈ newRef then
      match repository.recover_fossil f with
      | Except.error e => (Except.error (FossilDeletionError.repository e), [FossilAction.recover f])
      | Except.ok _ =>
        match process_fossils repository newRef rest with
        | (res, tr) => (res, FossilAction.recover f :: tr)
    else
      match repository.delete_fossil f with
      | Except.error e => (Except.error (FossilDeletionError.repository e), [FossilAction.delete f])
      | Except.ok _ =>
        match process_fossils repository newRef rest with
        | (res, tr) => (res, FossilAction.delete f :: tr)

/-- Rust `delete_fossils` (sync.rs:165-209), paired with the trace of
`recover_fossil` / `delete_fossil` calls it issued. -/
def delete_fossils {Cl Ch Aid F Er Ea : Type} [DecidableEq Cl] [DecidableEq Ch]
    [DecidableEq Aid] (collection : FossilCollection F Aid)
    (repository : SyncRepository Cl Ch Aid F Er Ea) :
    Except (FossilDeletionError Er Ea) Unit × List (FossilAction F) :=
  match scan_archives repository collection.seen_archives.toFinset
      repository.archives ∅ (ValidClients.new collection.collection_timestamp) with
  | Except.error e => (Except.error e, [])
  | Except.ok (newRef, vc) =>
    match check_clients vc repository.clients with
    | some e => (Except.error e, [])
    | none => process_fossils repository newRef collection.fossils

/-- An iterator enumeration that succeeds: every yielded item is `Except.ok`. -/
def allOk {Ea Ch : Type} (l : List (Except Ea Ch)) : Prop :=
  ∀ x ∈ l, ∃ c, x = Except.ok c

instance {Ea Ch : Type} (x : Except Ea Ch) : Decidable (∃ c, x = Except.ok c) :=
  match x with
  | Except.error _ => isFalse (by simp)
  | Except.ok c => isTrue ⟨c, rfl⟩

instance {Ea Ch : Type} (l : List (Except Ea Ch)) : Decidable (allOk l) :=
  inferInstanceAs (Decidable (∀ x ∈ l, ∃ c, x = Except.ok c))

/-- The payloads of the `Except.ok` items of an enumeration. -/
def okChunks {Ea Ch : Type} : List (Except Ea Ch) → List Ch
  | [] => []
  | Except.error _ :: rest => okChunks rest
  | Except.ok c :: rest => c :: okChunks rest

/-- The candidate predicate of the specification: a chunk that occurs in
some pruned archive and in no kept archive. -/
def isCandidate {Cl Ch Aid Ea : Type} (kept : List (Aid × SyncArchive Cl Ch Ea))
    (pruned : List (SyncArchive Cl Ch Ea)) (c : Ch) : Prop :=
  (∃ a ∈ pruned, Except.ok c ∈ a.chunks) ∧ ∀ p ∈ kept, Except.ok c ∉ p.2.chunks

instance {Cl Ch Aid Ea : Type} [DecidableEq Ch] [DecidableEq Ea]
    (kept : List (Aid × SyncArchive Cl Ch Ea)) (pruned : List (SyncArchive Cl Ch Ea))
    (c : Ch) : Decidable (isCandidate kept pruned c) :=
  inferInstanceAs (Decidable (_ ∧ _))

/-- A single chunk-level collector operation: `add_reference` or `add_chunk`. -/
inductive ChunkOp (Ch : Type)
  | reference (c : Ch)
  | chunk (c : Ch)
deriving DecidableEq

/-- Apply one chunk-level operation to a collector. -/
def apply_chunk_op {Ch : Type} [DecidableEq Ch] (col : FossilCollector Ch) :
    ChunkOp Ch → FossilCollector Ch
  | ChunkOp.reference c => col.add_reference c
  | ChunkOp.chunk c => col.add_chunk c

/-- A single archive-level collector operation: `retain_archive` or
`prune_archive` on an archive whose chunk enumeration succeeds with the
given chunk list. -/
inductive CollectorOp (Ch : Type)
  | retain (chunks : List Ch)
  | prune (chunks : List Ch)
deriving DecidableEq

/-- Apply one archive-level operation through the source methods
`retain_archive` / `prune_archive` (with an error-free enumeration). -/
def apply_op {Ch : Type} [DecidableEq Ch] (col : FossilCollector Ch) :
    CollectorOp Ch → FossilCollector Ch
  | CollectorOp.retain l =>
    (col.retain_archive (l.map (Except.ok : Ch → Except Unit Ch))).1
  | CollectorOp.prune l =>
    (col.prune_archive (l.map (Except.ok : Ch → Except Unit Ch))).1

/-- Process a whole interleaving of retain/prune operations in order. -/
def apply_ops {Ch : Type} [DecidableEq Ch] (col : FossilCollector Ch)
    (ops : List (CollectorOp Ch)) : FossilCollector Ch :=
  ops.foldl apply_op col

/-- The chunks retained by an interleaving: chunks of its `retain` operations. -/
def retained_of {Ch : Type} [DecidableEq Ch] : List (CollectorOp Ch) → Finset Ch
  | [] => ∅
  | CollectorOp.retain l :: rest => l.toFinset ∪ retained_of rest
  | CollectorOp.prune _ :: rest => retained_of rest

/-- The chunks pruned by an interleaving: chunks of its `prune` operations. -/
def pruned_of {Ch : Type} [DecidableEq Ch] : List (CollectorOp Ch) → Finset Ch
  | [] => ∅
  | CollectorOp.retain _ :: rest => pruned_of rest
  | CollectorOp.prune l :: rest => l.toFinset ∪ pruned_of rest

/-- The `make_fossil` loop of `collect_fossils` (sync.rs:150-154) under a
logical clock: each call completes at the current instant, after which the
clock has advanced past it; the final clock value is the instant at which
`FossilCollection::new` (lib.rs:95-97) samples `Instant::now()`. Returns
each fossil paired with the instant at which it was created, together with
that final clock value. -/
def make_fossils_clocked {Ch F Er : Type} (mk : Ch → Except Er F) :
    List Ch → Nat → Except Er (List (F × Nat) × Nat)
  | [], t => Except.ok ([], t)
  | c :: rest, t =>
    match mk c with
    | Except.error e => Except.error e
    | Except.ok f =>
      match make_fossils_clocked mk rest (t + 1) with
      | Except.error e => Except.error e
      | Except.ok (fs, tEnd) => Except.ok ((f, t) :: fs, tEnd)

/-- Rust `collect_fossils` (sync.rs:126-159) under the logical clock of
`make_fossils_clocked`: identical control flow, but the collection
timestamp is the clock value read after the last `make_fossil` call
completed, and the instants of fossil creation are reported alongside. -/
def collect_fossils_clocked {Cl Ch Aid F Er Ea : Type} [DecidableEq Ch]
    [LinearOrder Ch] (kept_archives : List (Aid × SyncArchive Cl Ch Ea))
    (pruned_archives : List (SyncArchive Cl Ch Ea))
    (repository : SyncRepository Cl Ch Aid F Er Ea) (clock : Nat) :
    Except (FossilCollectionError Er Ea)
      (FossilCollection F Aid × List (F × Nat)) :=
  match collect_kept FossilCollector.new [] kept_archives with
  | (_, _, some e) => Except.error (FossilCollectionError.archive e)
  | (col, seen, none) =>
    match prune_all col pruned_archives with
    | (_, some e) => Except.error (FossilCollectionError.archive e)
    | (col', none) =>
      match make_fossils_clocked repository.make_fossil col'.fossil_candidates clock with
      | Except.error e => Except.error (FossilCollectionError.repository e)
      | Except.ok (stamped, tEnd) =>
        Except.ok
          (FossilCollection.with_timestamp tEnd (stamped.map Prod.fst) seen, stamped)

/-- A concrete archive for exercising the definitions. -/
def archA : SyncArchive Nat Nat Nat :=
  ⟨7, 5, [Except.ok 1, Except.ok 2]⟩

/-- A second concrete archive. -/
def archB : SyncArchive Nat Nat Nat :=
  ⟨8, 9, [Except.ok 2, Except.ok 3]⟩

/-- A concrete repository for exercising the definitions: two clients, two
archives, fossilisation succeeds by shifting the chunk ID. -/
def repoA : SyncRepository Nat Nat Nat Nat Nat Nat :=
  ⟨[Except.ok 7, Except.ok 8], [Except.ok 0, Except.ok 1],
    fun aid => if aid = 0 then Except.ok archA else Except.ok archB,
    fun c => Except.ok (c + 100), fun _ => Except.ok (), fun _ => Except.ok (),
    fun f => f⟩

/-- A concrete witness set for exercising the definitions. -/
def vcA : ValidClients Nat :=
  ⟨5, {1}⟩

/-- An archive created exactly at the collection timestamp of `vcA`. -/
def archBoundary : SyncArchive Nat Nat Nat :=
  ⟨2, 5, []⟩

/-- An archive created strictly after the collection timestamp of `vcA`. -/
def archLate : SyncArchive Nat Nat Nat :=
  ⟨2, 7, []⟩

/-- A third concrete archive, created by client 7 after instant 5. -/
def archC : SyncArchive Nat Nat Nat :=
  ⟨7, 9, [Except.ok 1]⟩

/-- A concrete repository on which fossil deletion succeeds: both clients
own an archive created after instant 5. Fossil IDs are chunk IDs shifted by
100. -/
def repoB : SyncRepository Nat Nat Nat Nat Nat Nat :=
  ⟨[Except.ok 7, Except.ok 8], [Except.ok 0, Except.ok 1, Except.ok 2],
    fun aid => if aid = 0 then Except.ok archA
      else if aid = 1 then Except.ok archB else Except.ok archC,
    fun c => Except.ok (c + 100), fun _ => Except.ok (), fun _ => Except.ok (),
    fun f => f - 100⟩

/-- A repository whose archive enumeration fails at the first item. -/
def repoErr : SyncRepository Nat Nat Nat Nat Nat Nat :=
  ⟨[Except.ok 7], [Except.error 0], fun _ => Except.error 0,
    fun c => Except.ok (c + 100), fun _ => Except.ok (), fun _ => Except.ok (),
    fun f => f - 100⟩

/-- A concrete fossil collection: fossils 102 and 104, archive 0 seen,
collected at instant 5. -/
def collB : FossilCollection Nat Nat :=
  ⟨5, [102, 104], [0]⟩

/-- A concrete fossil collection with a single fossil. -/
def collC : FossilCollection Nat Nat :=
  ⟨5, [102], [0]⟩

/-! ### Helper lemmas about the collector -/

theorem mem_sortedList {Ch : Type} [LinearOrder Ch] (s : Finset Ch) (c : Ch) :
    c ∈ sortedList s ↔ c ∈ s := by
  obtain ⟨val, nd⟩ := s
  obtain ⟨l, rfl⟩ := Quotient.exists_rep val
  rw [show sortedList ⟨Quotient.mk (List.isSetoid Ch) l, nd⟩ =
      List.insertionSort (fun x y => x ≤ y) l from rfl]
  rw [List.Perm.mem_iff (List.perm_insertionSort _ l)]
  simp [Finset.mem_mk]

theorem foldl_add_reference_referenced {Ch : Type} [DecidableEq Ch]
    (l : List Ch) (col : FossilCollector Ch) :
    (l.foldl FossilCollector.add_reference col).referenced_chunks =
      col.referenced_chunks ∪ l.toFinset := by
  induction l generalizing col with
  | nil => simp
  | cons c rest ih =>
    simp only [List.foldl_cons, ih, FossilCollector.add_reference, List.toFinset_cons]
    ext x
    simp only [Finset.mem_union, Finset.mem_insert, List.mem_toFinset]
    tauto

theorem foldl_add_reference_unreferenced {Ch : Type} [DecidableEq Ch]
    (l : List Ch) (col : FossilCollector Ch) :
    (l.foldl FossilCollector.add_reference col).unreferenced_chunks =
      col.unreferenced_chunks \ l.toFinset := by
  induction l generalizing col with
  | nil => simp
  | cons c rest ih =>
    simp only [List.foldl_cons, ih, FossilCollector.add_reference, List.toFinset_cons]
    ext x
    simp only [Finset.mem_sdiff, Finset.mem_erase, Finset.mem_insert, List.mem_toFinset]
    tauto

theorem add_chunk_referenced {Ch : Type} [DecidableEq Ch]
    (col : FossilCollector Ch) (c : Ch) :
    (col.add_chunk c).referenced_chunks = col.referenced_chunks := by
  unfold FossilCollector.add_chunk
  split <;> rfl

theorem foldl_add_chunk_referenced {Ch : Type} [DecidableEq Ch]
    (l : List Ch) (col : FossilCollector Ch) :
    (l.foldl FossilCollector.add_chunk col).referenced_chunks =
      col.referenced_chunks := by
  induction l generalizing col with
  | nil => rfl
  | cons c rest ih => simp only [List.foldl_cons, ih, add_chunk_referenced]

theorem foldl_add_chunk_unreferenced {Ch : Type} [DecidableEq Ch]
    (l : List Ch) (col : FossilCollector Ch) :
    (l.foldl FossilCollector.add_chunk col).unreferenced_chunks =
      col.unreferenced_chunks ∪ (l.toFinset \ col.referenced_chunks) := by
  induction l generalizing col with
  | nil => simp
  | cons c rest ih =>
    simp only [List.foldl_cons, ih, add_chunk_referenced, List.toFinset_cons]
    by_cases hc : c ∈ col.referenced_chunks
    · simp only [FossilCollector.add_chunk, if_pos hc]
      ext x
      simp only [Finset.mem_union, Finset.mem_sdiff, Finset.mem_insert, List.mem_toFinset]
      constructor
      · tauto
      · rintro (hx | ⟨(rfl | hx), hr⟩)
        · tauto
        · exact absurd hc hr
        · tauto
    · simp only [FossilCollector.add_chunk, if_neg hc]
      ext x
      simp only [Finset.mem_union, Finset.mem_sdiff, Finset.mem_insert, List.mem_toFinset]
      constructor
      · rintro ((rfl | hx) | ⟨hx, hr⟩) <;> tauto
      · rintro (hx | ⟨(rfl | hx), hr⟩) <;> tauto

theorem retain_archive_map_ok {Ch Ea : Type} [DecidableEq Ch]
    (l : List Ch) (col : FossilCollector Ch) :
    col.retain_archive (l.map (Except.ok : Ch → Except Ea Ch)) =
      (l.foldl FossilCollector.add_reference col, none) := by
  induction l generalizing col with
  | nil => rfl
  | cons c rest ih => simpa [FossilCollector.retain_archive] using ih (col.add_reference c)

theorem prune_archive_map_ok {Ch Ea : Type} [DecidableEq Ch]
    (l : List Ch) (col : FossilCollector Ch) :
    col.prune_archive (l.map (Except.ok : Ch → Except Ea Ch)) =
      (l.foldl FossilCollector.add_chunk col, none) := by
  induction l generalizing col with
  | nil => rfl
  | cons c rest ih => simpa [FossilCollector.prune_archive] using ih (col.add_chunk c)

theorem retain_archive_error {Ch Ea : Type} [DecidableEq Ch]
    (pre : List Ch) (e : Ea) (post : List (Except Ea Ch)) (col : FossilCollector Ch) :
    col.retain_archive (pre.map Except.ok ++ Except.error e :: post) =
      (pre.foldl FossilCollector.add_reference col, some e) := by
  induction pre generalizing col with
  | nil => rfl
  | cons c rest ih =>
    simpa [FossilCollector.retain_archive] using ih (col.add_reference c)

theorem mem_okChunks {Ea Ch : Type} (l : List (Except Ea Ch)) (c : Ch) :
    c ∈ okChunks l ↔ Except.ok c ∈ l := by
  induction l with
  | nil => simp [okChunks]
  | cons x rest ih =>
    cases x with
    | error e => simp [okChunks, ih]
    | ok c' => simp [okChunks, ih, List.mem_cons]

theorem allOk_eq_map {Ea Ch : Type} (l : List (Except Ea Ch)) (h : allOk l) :
    l = (okChunks l).map Except.ok := by
  induction l with
  | nil => rfl
  | cons x rest ih =>
    obtain ⟨c, rfl⟩ := h x (List.mem_cons_self x rest)
    simp only [okChunks, List.map_cons, List.cons.injEq, true_and]
    exact ih (fun y hy => h y (List.mem_cons_of_mem _ hy))

theorem retain_archive_allOk {Ch Ea : Type} [DecidableEq Ch]
    (l : List (Except Ea Ch)) (col : FossilCollector Ch) (h : allOk l) :
    col.retain_archive l = ((okChunks l).foldl FossilCollector.add_reference col, none) := by
  induction l generalizing col with
  | nil => rfl
  | cons x rest ih =>
    obtain ⟨c, rfl⟩ := h x (List.mem_cons_self x rest)
    simp only [FossilCollector.retain_archive, okChunks, List.foldl_cons]
    exact ih _ (fun y hy => h y (List.mem_cons_of_mem _ hy))

theorem prune_archive_allOk {Ch Ea : Type} [DecidableEq Ch]
    (l : List (Except Ea Ch)) (col : FossilCollector Ch) (h : allOk l) :
    col.prune_archive l = ((okChunks l).foldl FossilCollector.add_chunk col, none) := by
  induction l generalizing col with
  | nil => rfl
  | cons x rest ih =>
    obtain ⟨c, rfl⟩ := h x (List.mem_cons_self x rest)
    simp only [FossilCollector.prune_archive, okChunks, List.foldl_cons]
    exact ih _ (fun y hy => h y (List.mem_cons_of_mem _ hy))

theorem collect_kept_allOk {Cl Ch Aid Ea : Type} [DecidableEq Ch]
    (kept : List (Aid × SyncArchive Cl Ch Ea)) (col : FossilCollector Ch)
    (seen : List Aid) (hk : ∀ p ∈ kept, allOk p.2.chunks) :
    collect_kept col seen kept =
      ((kept.map (fun p => okChunks p.2.chunks)).flatten.foldl FossilCollector.add_reference col,
        seen ++ kept.map Prod.fst, none) := by
  induction kept generalizing col seen with
  | nil => simp [collect_kept]
  | cons p rest ih =>
    obtain ⟨aid, a⟩ := p
    have h1 := retain_archive_allOk a.chunks col (hk (aid, a) (List.mem_cons_self _ _))
    have h2 := ih ((okChunks a.chunks).foldl FossilCollector.add_reference col) (seen ++ [aid])
      (fun q hq => hk q (List.mem_cons_of_mem _ hq))
    simp only [collect_kept, h1, h2, List.map_cons, List.flatten_cons, List.foldl_append,
      List.append_assoc, List.singleton_append]

theorem prune_all_allOk {Cl Ch Ea : Type} [DecidableEq Ch]
    (pruned : List (SyncArchive Cl Ch Ea)) (col : FossilCollector Ch)
    (hp : ∀ a ∈ pruned, allOk a.chunks) :
    prune_all col pruned =
      ((pruned.map (fun a => okChunks a.chunks)).flatten.foldl FossilCollector.add_chunk col,
        none) := by
  induction pruned generalizing col with
  | nil => simp [prune_all]
  | cons a rest ih =>
    have h1 := prune_archive_allOk a.chunks col (hp a (List.mem_cons_self _ _))
    have h2 := ih ((okChunks a.chunks).foldl FossilCollector.add_chunk col)
      (fun b hb => hp b (List.mem_cons_of_mem _ hb))
    simp only [prune_all, h1, h2, List.map_cons, List.flatten_cons, List.foldl_append]

theorem map_fossils_allOk {Ch F Er : Type} (mk : Ch → Except Er F) (l : List Ch)
    (h : ∀ c ∈ l, ∃ f, mk c = Except.ok f) :
    ∃ fs, map_fossils mk l = Except.ok fs ∧
      ∀ f, f ∈ fs ↔ ∃ c ∈ l, mk c = Except.ok f := by
  induction l with
  | nil => exact ⟨[], rfl, by simp [map_fossils]⟩
  | cons c rest ih =>
    obtain ⟨f, hf⟩ := h c (List.mem_cons_self _ _)
    obtain ⟨fs, hfs, hiff⟩ := ih (fun d hd => h d (List.mem_cons_of_mem _ hd))
    refine ⟨f :: fs, by simp [map_fossils, hf, hfs], ?_⟩
    intro g
    simp only [List.mem_cons, hiff]
    constructor
    · rintro (rfl | ⟨c', hc', hg⟩)
      · exact ⟨c, Or.inl rfl, hf⟩
      · exact ⟨c', Or.inr hc', hg⟩
    · rintro ⟨c', hc', hg⟩
      rcases hc' with rfl | hc'
      · left
        rw [hf] at hg
        exact (Except.ok.inj hg).symm
      · right
        exact ⟨c', hc', hg⟩

theorem mem_join_map_okChunks {α Ea Ch : Type} (g : α → List (Except Ea Ch))
    (L : List α) (c : Ch) :
    c ∈ (L.map (fun x => okChunks (g x))).flatten ↔ ∃ x ∈ L, Except.ok c ∈ g x := by
  rw [List.mem_flatten]
  constructor
  · rintro ⟨l, hl, hc⟩
    obtain ⟨x, hx, rfl⟩ := List.mem_map.mp hl
    exact ⟨x, hx, (mem_okChunks _ _).1 hc⟩
  · rintro ⟨x, hx, hc⟩
    exact ⟨okChunks (g x), List.mem_map.mpr ⟨x, hx, rfl⟩, (mem_okChunks _ _).2 hc⟩

theorem collect_fossils_allOk {Cl Ch Aid F Er Ea : Type} [DecidableEq Ch] [LinearOrder Ch]
    (kept : List (Aid × SyncArchive Cl Ch Ea)) (pruned : List (SyncArchive Cl Ch Ea))
    (repo : SyncRepository Cl Ch Aid F Er Ea) (now : Nat)
    (hk : ∀ p ∈ kept, allOk p.2.chunks) (hp : ∀ a ∈ pruned, allOk a.chunks)
    (hmk : ∀ c, isCandidate kept pruned c → ∃ f, repo.make_fossil c = Except.ok f) :
    ∃ coll, collect_fossils kept pruned repo now = Except.ok coll ∧
      coll.collection_timestamp = now ∧
      coll.seen_archives = kept.map Prod.fst ∧
      ∀ f, f ∈ coll.fossils ↔
        ∃ c, isCandidate kept pruned c ∧ repo.make_fossil c = Except.ok f := by
  have hkept := collect_kept_allOk kept FossilCollector.new [] hk
  have hprune := prune_all_allOk pruned
    ((kept.map (fun p => okChunks p.2.chunks)).flatten.foldl FossilCollector.add_reference
      FossilCollector.new) hp
  have hcand : ∀ c,
      c ∈ ((pruned.map (fun a => okChunks a.chunks)).flatten.foldl FossilCollector.add_chunk
        ((kept.map (fun p => okChunks p.2.chunks)).flatten.foldl FossilCollector.add_reference
          FossilCollector.new)).fossil_candidates ↔
        isCandidate kept pruned c := by
    intro c
    unfold FossilCollector.fossil_candidates
    rw [mem_sortedList, foldl_add_chunk_unreferenced, foldl_add_reference_unreferenced,
      foldl_add_reference_referenced]
    simp only [FossilCollector.new, Finset.mem_union, Finset.mem_sdiff, Finset.not_mem_empty,
      Finset.empty_union, List.mem_toFinset, false_or, false_and, or_false,
      mem_join_map_okChunks, isCandidate]
    constructor
    · rintro ⟨hpm, hkm⟩
      refine ⟨hpm, fun p hpk hcontra => hkm ⟨p, hpk, hcontra⟩⟩
    · rintro ⟨hpm, hkm⟩
      refine ⟨hpm, fun hcontra => ?_⟩
      obtain ⟨p, hpk, hcm⟩ := hcontra
      exact hkm p hpk hcm
  obtain ⟨fs, hfs, hiff⟩ := map_fossils_allOk repo.make_fossil _
    (fun c hc => hmk c ((hcand c).1 hc))
  refine ⟨FossilCollection.with_timestamp now fs (kept.map Prod.fst), ?_, rfl, rfl, ?_⟩
  · simp only [collect_fossils, hkept, hprune, hfs, List.nil_append]
  · intro f
    simp only [FossilCollection.with_timestamp, hiff]
    constructor
    · rintro ⟨c, hc, hm⟩
      exact ⟨c, (hcand c).1 hc, hm⟩
    · rintro ⟨c, hc, hm⟩
      exact ⟨c, (hcand c).2 hc, hm⟩

/-! ### Claims about the collector and `collect_fossils` -/

/-- C1: for every pair of kept and pruned archive sequences whose chunk
enumerations all succeed and every repository whose `make_fossil` calls on
the candidates all succeed, `collect_fossils` returns `Ok` of a collection
whose seen-archives sequence is exactly the `ArchiveID`s of the kept pairs
in input order, and whose fossils are exactly the `make_fossil` results for
the candidate set (the chunks occurring in some pruned archive and in no
kept archive), and for no other chunk. -/
theorem C1_collect_fossils_characterisation {Cl Ch Aid F Er Ea : Type}
    [DecidableEq Ch] [LinearOrder Ch]
    (kept : List (Aid × SyncArchive Cl Ch Ea)) (pruned : List (SyncArchive Cl Ch Ea))
    (repo : SyncRepository Cl Ch Aid F Er Ea) (now : Nat)
    (hk : ∀ p ∈ kept, allOk p.2.chunks) (hp : ∀ a ∈ pruned, allOk a.chunks)
    (hmk : ∀ c, isCandidate kept pruned c → ∃ f, repo.make_fossil c = Except.ok f) :
    ∃ coll, collect_fossils kept pruned repo now = Except.ok coll ∧
      coll.seen_archives = kept.map Prod.fst ∧
      ∀ f, f ∈ coll.fossils ↔
        ∃ c, isCandidate kept pruned c ∧ repo.make_fossil c = Except.ok f := by
  obtain ⟨coll, h1, _, h3, h4⟩ := collect_fossils_allOk kept pruned repo now hk hp hmk
  exact ⟨coll, h1, h3, h4⟩

/-- Witness for C1 at concrete inputs. -/
theorem C1_witness :
    ∃ coll, collect_fossils [(0, archA)] [archB] repoA 42 = Except.ok coll ∧
      coll.seen_archives = [(0, archA)].map Prod.fst ∧
      ∀ f, f ∈ coll.fossils ↔
        ∃ c, isCandidate [(0, archA)] [archB] c ∧ repoA.make_fossil c = Except.ok f :=
  C1_collect_fossils_characterisation [(0, archA)] [archB] repoA 42
    (by decide) (by decide) (fun c _ => ⟨c + 100, rfl⟩)

theorem apply_op_retain {Ch : Type} [DecidableEq Ch] (col : FossilCollector Ch)
    (l : List Ch) :
    apply_op col (CollectorOp.retain l) = l.foldl FossilCollector.add_reference col := by
  simp [apply_op, retain_archive_map_ok]

theorem apply_op_prune {Ch : Type} [DecidableEq Ch] (col : FossilCollector Ch)
    (l : List Ch) :
    apply_op col (CollectorOp.prune l) = l.foldl FossilCollector.add_chunk col := by
  simp [apply_op, prune_archive_map_ok]

theorem apply_ops_referenced {Ch : Type} [DecidableEq Ch]
    (ops : List (CollectorOp Ch)) (col : FossilCollector Ch) :
    (apply_ops col ops).referenced_chunks = col.referenced_chunks ∪ retained_of ops := by
  induction ops generalizing col with
  | nil => simp [apply_ops, retained_of]
  | cons op rest ih =>
    cases op with
    | retain l =>
      simp only [apply_ops, List.foldl_cons, apply_op_retain] at ih ⊢
      rw [ih, foldl_add_reference_referenced, retained_of]
      ext x
      simp only [Finset.mem_union, List.mem_toFinset]
      tauto
    | prune l =>
      simp only [apply_ops, List.foldl_cons, apply_op_prune] at ih ⊢
      rw [ih, foldl_add_chunk_referenced, retained_of]

theorem apply_ops_unreferenced {Ch : Type} [DecidableEq Ch]
    (ops : List (CollectorOp Ch)) (col : FossilCollector Ch) :
    (apply_ops col ops).unreferenced_chunks =
      (col.unreferenced_chunks ∪ (pruned_of ops \ col.referenced_chunks)) \
        retained_of ops := by
  induction ops generalizing col with
  | nil => simp [apply_ops, retained_of, pruned_of]
  | cons op rest ih =>
    cases op with
    | retain l =>
      simp only [apply_ops, List.foldl_cons, apply_op_retain] at ih ⊢
      rw [ih, foldl_add_reference_unreferenced, foldl_add_reference_referenced,
        retained_of, pruned_of]
      ext x
      simp only [Finset.mem_sdiff, Finset.mem_union, List.mem_toFinset]
      tauto
    | prune l =>
      simp only [apply_ops, List.foldl_cons, apply_op_prune] at ih ⊢
      rw [ih, foldl_add_chunk_unreferenced, foldl_add_chunk_referenced,
        retained_of, pruned_of]
      ext x
      simp only [Finset.mem_sdiff, Finset.mem_union, List.mem_toFinset]
      tauto

theorem mem_retained_of {Ch : Type} [DecidableEq Ch] (ops : List (CollectorOp Ch))
    (c : Ch) :
    c ∈ retained_of ops ↔ ∃ l, CollectorOp.retain l ∈ ops ∧ c ∈ l := by
  induction ops with
  | nil => simp [retained_of]
  | cons op rest ih =>
    cases op with
    | retain l' =>
      simp only [retained_of, Finset.mem_union, List.mem_toFinset, ih, List.mem_cons,
        CollectorOp.retain.injEq]
      constructor
      · rintro (hc | ⟨l, hl, hcl⟩)
        · exact ⟨l', Or.inl rfl, hc⟩
        · exact ⟨l, Or.inr hl, hcl⟩
      · rintro ⟨l, (rfl | hl), hcl⟩
        · exact Or.inl hcl
        · exact Or.inr ⟨l, hl, hcl⟩
    | prune l' =>
      simp only [retained_of, ih, List.mem_cons]
      constructor
      · rintro ⟨l, hl, hcl⟩
        exact ⟨l, Or.inr hl, hcl⟩
      · rintro ⟨l, (heq | hl), hcl⟩
        · exact absurd heq (by simp)
        · exact ⟨l, hl, hcl⟩

theorem mem_pruned_of {Ch : Type} [DecidableEq Ch] (ops : List (CollectorOp Ch))
    (c : Ch) :
    c ∈ pruned_of ops ↔ ∃ l, CollectorOp.prune l ∈ ops ∧ c ∈ l := by
  induction ops with
  | nil => simp [pruned_of]
  | cons op rest ih =>
    cases op with
    | prune l' =>
      simp only [pruned_of, Finset.mem_union, List.mem_toFinset, ih, List.mem_cons,
        CollectorOp.prune.injEq]
      constructor
      · rintro (hc | ⟨l, hl, hcl⟩)
        · exact ⟨l', Or.inl rfl, hc⟩
        · exact ⟨l, Or.inr hl, hcl⟩
      · rintro ⟨l, (rfl | hl), hcl⟩
        · exact Or.inl hcl
        · exact Or.inr ⟨l, hl, hcl⟩
    | retain l' =>
      simp only [pruned_of, ih, List.mem_cons]
      constructor
      · rintro ⟨l, hl, hcl⟩
        exact ⟨l, Or.inr hl, hcl⟩
      · rintro ⟨l, (heq | hl), hcl⟩
        · exact absurd heq (by simp)
        · exact ⟨l, hl, hcl⟩

theorem retained_of_perm {Ch : Type} [DecidableEq Ch]
    {ops₁ ops₂ : List (CollectorOp Ch)} (h : ops₁.Perm ops₂) :
    retained_of ops₁ = retained_of ops₂ := by
  ext c
  rw [mem_retained_of, mem_retained_of]
  constructor <;> rintro ⟨l, hl, hcl⟩
  · exact ⟨l, h.mem_iff.1 hl, hcl⟩
  · exact ⟨l, h.mem_iff.2 hl, hcl⟩

theorem pruned_of_perm {Ch : Type} [DecidableEq Ch]
    {ops₁ ops₂ : List (CollectorOp Ch)} (h : ops₁.Perm ops₂) :
    pruned_of ops₁ = pruned_of ops₂ := by
  ext c
  rw [mem_pruned_of, mem_pruned_of]
  constructor <;> rintro ⟨l, hl, hcl⟩
  · exact ⟨l, h.mem_iff.1 hl, hcl⟩
  · exact ⟨l, h.mem_iff.2 hl, hcl⟩

/-- C6: the fossil-candidate set is independent of presentation order: any
two interleavings of the same multiset of `retain_archive` / `prune_archive`
operations produce the same unreferenced set; a chunk retained by some kept
archive of the interleaving is never a candidate; and `collect_fossils`
with `kept = [A]` and `pruned = [A]` returns an empty fossil list. -/
theorem C6_candidate_order_independence {Cl Ch Aid F Er Ea : Type}
    [DecidableEq Ch] [LinearOrder Ch]
    (ops₁ ops₂ : List (CollectorOp Ch)) (hperm : ops₁.Perm ops₂) (c : Ch)
    (hc : ∃ l, CollectorOp.retain l ∈ ops₁ ∧ c ∈ l)
    (aid : Aid) (A : SyncArchive Cl Ch Ea) (hA : allOk A.chunks)
    (repo : SyncRepository Cl Ch Aid F Er Ea) (now : Nat) :
    (apply_ops FossilCollector.new ops₁).unreferenced_chunks =
        (apply_ops FossilCollector.new ops₂).unreferenced_chunks ∧
      c ∉ (apply_ops FossilCollector.new ops₁).unreferenced_chunks ∧
      ∃ coll, collect_fossils [(aid, A)] [A] repo now = Except.ok coll ∧
        coll.fossils = [] := by
  refine ⟨?_, ?_, ?_⟩
  · rw [apply_ops_unreferenced, apply_ops_unreferenced, retained_of_perm hperm,
      pruned_of_perm hperm]
  · rw [apply_ops_unreferenced]
    intro hmem
    exact (Finset.mem_sdiff.1 hmem).2 ((mem_retained_of ops₁ c).2 hc)
  · have hmk : ∀ d, isCandidate [(aid, A)] [A] d →
        ∃ f, repo.make_fossil d = Except.ok f := by
      rintro d ⟨⟨a, ha, hmem⟩, hall⟩
      rcases List.mem_singleton.mp ha with rfl
      exact absurd hmem (hall (aid, a) (List.mem_singleton.mpr rfl))
    obtain ⟨coll, h1, _, _, h4⟩ := collect_fossils_allOk [(aid, A)] [A] repo now
      (by simpa using hA) (by simpa using hA) hmk
    refine ⟨coll, h1, List.eq_nil_iff_forall_not_mem.mpr ?_⟩
    intro f hf
    obtain ⟨d, hd, _⟩ := (h4 f).1 hf
    obtain ⟨⟨a, ha, hmem⟩, hall⟩ := hd
    rcases List.mem_singleton.mp ha with rfl
    exact (hall (aid, a) (List.mem_singleton.mpr rfl)) hmem

/-- Witness for C6 at concrete inputs. -/
theorem C6_witness :
    (apply_ops FossilCollector.new
          [CollectorOp.retain [1, 2], CollectorOp.prune [2, 3]]).unreferenced_chunks =
        (apply_ops FossilCollector.new
          [CollectorOp.prune [2, 3], CollectorOp.retain [1, 2]]).unreferenced_chunks ∧
      (2 : Nat) ∉ (apply_ops FossilCollector.new
        [CollectorOp.retain [1, 2], CollectorOp.prune [2, 3]]).unreferenced_chunks ∧
      ∃ coll, collect_fossils [(0, archA)] [archA] repoA 42 = Except.ok coll ∧
        coll.fossils = [] :=
  C6_candidate_order_independence
    [CollectorOp.retain [1, 2], CollectorOp.prune [2, 3]]
    [CollectorOp.prune [2, 3], CollectorOp.retain [1, 2]]
    (by decide) 2 ⟨[1, 2], by decide, by decide⟩ 0 archA (by decide) repoA 42

theorem apply_chunk_op_disjoint {Ch : Type} [DecidableEq Ch]
    (col : FossilCollector Ch) (op : ChunkOp Ch)
    (h : col.referenced_chunks ∩ col.unreferenced_chunks = ∅) :
    (apply_chunk_op col op).referenced_chunks ∩
      (apply_chunk_op col op).unreferenced_chunks = ∅ := by
  have h' : ∀ x, ¬(x ∈ col.referenced_chunks ∧ x ∈ col.unreferenced_chunks) := by
    intro x hx
    have := Finset.mem_inter.mpr hx
    rw [h] at this
    exact Finset.not_mem_empty x this
  cases op with
  | reference d =>
    rw [Finset.eq_empty_iff_forall_not_mem]
    intro x hx
    rw [Finset.mem_inter] at hx
    obtain ⟨hx1, hx2⟩ := hx
    simp only [apply_chunk_op, FossilCollector.add_reference, Finset.mem_insert,
      Finset.mem_erase] at hx1 hx2
    rcases hx1 with rfl | hx1
    · exact hx2.1 rfl
    · exact h' x ⟨hx1, hx2.2⟩
  | chunk d =>
    by_cases hd : d ∈ col.referenced_chunks
    · simpa only [apply_chunk_op, FossilCollector.add_chunk, if_pos hd] using h
    · rw [Finset.eq_empty_iff_forall_not_mem]
      intro x hx
      rw [Finset.mem_inter] at hx
      obtain ⟨hx1, hx2⟩ := hx
      simp only [apply_chunk_op, FossilCollector.add_chunk, if_neg hd,
        Finset.mem_insert] at hx1 hx2
      rcases hx2 with rfl | hx2
      · exact hd hx1
      · exact h' x ⟨hx1, hx2⟩

theorem apply_chunk_op_mono {Ch : Type} [DecidableEq Ch]
    (col : FossilCollector Ch) (op : ChunkOp Ch) (c : Ch)
    (hc : c ∈ col.referenced_chunks) :
    c ∈ (apply_chunk_op col op).referenced_chunks := by
  cases op with
  | reference d =>
    simp only [apply_chunk_op, FossilCollector.add_reference, Finset.mem_insert]
    exact Or.inr hc
  | chunk d =>
    simpa only [apply_chunk_op, add_chunk_referenced] using hc

/-- C4: after any sequence of `add_reference` / `add_chunk` operations the
referenced and unreferenced sets stay disjoint, membership in the
referenced set is monotone, and `add_chunk` on an already-referenced chunk
leaves the collector (and hence the candidate set) unchanged. -/
theorem C4_collector_invariants {Ch : Type} [DecidableEq Ch]
    (col : FossilCollector Ch) (ops : List (ChunkOp Ch))
    (hdisj : col.referenced_chunks ∩ col.unreferenced_chunks = ∅) (c : Ch)
    (hc : c ∈ col.referenced_chunks) :
    ((ops.foldl apply_chunk_op col).referenced_chunks ∩
        (ops.foldl apply_chunk_op col).unreferenced_chunks = ∅) ∧
      c ∈ (ops.foldl apply_chunk_op col).referenced_chunks ∧
      ∀ col' : FossilCollector Ch, ∀ d ∈ col'.referenced_chunks,
        col'.add_chunk d = col' := by
  refine ⟨?_, ?_, ?_⟩
  · induction ops generalizing col with
    | nil => exact hdisj
    | cons op rest ih =>
      rw [List.foldl_cons]
      exact ih _ (apply_chunk_op_disjoint col op hdisj)
        (apply_chunk_op_mono col op c hc)
  · induction ops generalizing col with
    | nil => exact hc
    | cons op rest ih =>
      rw [List.foldl_cons]
      exact ih _ (apply_chunk_op_disjoint col op hdisj)
        (apply_chunk_op_mono col op c hc)
  · intro col' d hd
    simp only [FossilCollector.add_chunk, if_pos hd]

/-- Witness for C4 at concrete inputs. -/
theorem C4_witness :
    (([ChunkOp.chunk 1, ChunkOp.reference 3, ChunkOp.chunk 1].foldl apply_chunk_op
          (FossilCollector.mk {1} ∅)).referenced_chunks ∩
        ([ChunkOp.chunk 1, ChunkOp.reference 3, ChunkOp.chunk 1].foldl apply_chunk_op
          (FossilCollector.mk {1} ∅)).unreferenced_chunks = ∅) ∧
      (1 : Nat) ∈ ([ChunkOp.chunk 1, ChunkOp.reference 3, ChunkOp.chunk 1].foldl
        apply_chunk_op (FossilCollector.mk {1} ∅)).referenced_chunks ∧
      ∀ col' : FossilCollector Nat, ∀ d ∈ col'.referenced_chunks,
        col'.add_chunk d = col' :=
  C4_collector_invariants (FossilCollector.mk {1} ∅)
    [ChunkOp.chunk 1, ChunkOp.reference 3, ChunkOp.chunk 1] (by decide) 1 (by decide)

/-- C5: `add_owned_archive` inserts the archive's creator exactly when the
creation instant is strictly greater than the bound collection timestamp;
an archive created at or before that timestamp (the exact-equality boundary
included) leaves the witness unchanged. -/
theorem C5_add_owned_archive_strict_boundary {Cl Ch Ea : Type} [DecidableEq Cl]
    (vc : ValidClients Cl) (a : SyncArchive Cl Ch Ea) :
    ((vc.add_owned_archive a).clients =
        if a.creation_timestamp > vc.collection_timestamp then
          insert a.creator vc.clients
        else vc.clients) ∧
      (a.creator ∈ (vc.add_owned_archive a).clients ↔
        a.creation_timestamp > vc.collection_timestamp ∨ a.creator ∈ vc.clients) ∧
      (a.creation_timestamp ≤ vc.collection_timestamp → vc.add_owned_archive a = vc) ∧
      (a.creation_timestamp = vc.collection_timestamp → vc.add_owned_archive a = vc) := by
  by_cases h : a.creation_timestamp > vc.collection_timestamp
  · refine ⟨?_, ?_, ?_, ?_⟩
    · simp [ValidClients.add_owned_archive, SyncArchive.into_creator, if_pos h]
    · simp only [ValidClients.add_owned_archive, SyncArchive.into_creator, if_pos h,
        Finset.mem_insert, true_or, true_iff]
      exact Or.inl h
    · intro hle
      exact absurd h (Nat.not_lt.mpr hle)
    · intro heq
      exact absurd h (by rw [heq]; exact Nat.lt_irrefl _)
  · refine ⟨?_, ?_, fun _ => ?_, fun _ => ?_⟩
    · simp [ValidClients.add_owned_archive, SyncArchive.into_creator, if_neg h]
    · simp only [ValidClients.add_owned_archive, SyncArchive.into_creator, if_neg h]
      constructor
      · exact Or.inr
      · rintro (hlt | hmem)
        · exact absurd hlt h
        · exact hmem
    · simp [ValidClients.add_owned_archive, if_neg h]
    · simp [ValidClients.add_owned_archive, if_neg h]

/-- Witness for C5 at concrete inputs. -/
theorem C5_witness :
    ((vcA.add_owned_archive archLate).clients =
        if archLate.creation_timestamp > vcA.collection_timestamp then
          insert archLate.creator vcA.clients
        else vcA.clients) ∧
      vcA.add_owned_archive archBoundary = vcA :=
  ⟨(C5_add_owned_archive_strict_boundary vcA archLate).1,
    (C5_add_owned_archive_strict_boundary vcA archBoundary).2.2.2 (by decide)⟩

/-- C9: `add_borrowed_archive` and `add_owned_archive` have identical
inclusion semantics: on any witness and archive they produce the same
client set, and include the archive's creator under the same condition. -/
theorem C9_borrowed_owned_equivalence {Cl Ch Ea : Type} [DecidableEq Cl]
    (vc : ValidClients Cl) (a : SyncArchive Cl Ch Ea) :
    vc.add_borrowed_archive a = vc.add_owned_archive a ∧
      (a.creator ∈ (vc.add_borrowed_archive a).clients ↔
        a.creator ∈ (vc.add_owned_archive a).clients) :=
  ⟨rfl, Iff.rfl⟩

/-- C8: `retain_archive` on an enumeration failing at some position returns
that error immediately, ignoring the items after the error, and the chunks
yielded before the error stay marked as referenced in the collector. -/
theorem C8_retain_archive_error_effects {Ch Ea : Type} [DecidableEq Ch]
    (col : FossilCollector Ch) (pre : List Ch) (e : Ea)
    (post : List (Except Ea Ch)) :
    col.retain_archive (pre.map Except.ok ++ Except.error e :: post) =
        (pre.foldl FossilCollector.add_reference col, some e) ∧
      ∀ c ∈ pre,
        c ∈ (col.retain_archive
          (pre.map Except.ok ++ Except.error e :: post)).1.referenced_chunks := by
  refine ⟨retain_archive_error pre e post col, ?_⟩
  intro c hc
  rw [retain_archive_error pre e post col]
  simp only [foldl_add_reference_referenced, Finset.mem_union, List.mem_toFinset]
  exact Or.inr hc

/-- Witness for C8 at concrete inputs. -/
theorem C8_witness :
    FossilCollector.new.retain_archive
          ([1, 2].map Except.ok ++ Except.error 0 :: [Except.ok 9]) =
        ([1, 2].foldl FossilCollector.add_reference FossilCollector.new, some 0) ∧
      (2 : Nat) ∈ (FossilCollector.new.retain_archive
        ([1, 2].map Except.ok ++ Except.error (0 : Nat) ::
          [Except.ok 9])).1.referenced_chunks :=
  ⟨(C8_retain_archive_error_effects FossilCollector.new [1, 2] 0 [Except.ok 9]).1,
    (C8_retain_archive_error_effects FossilCollector.new [1, 2] 0 [Except.ok 9]).2 2
      (by decide)⟩

/-! ### Helper lemmas about `delete_fossils` -/

theorem collect_chunks_ok_mem {Ch Ea : Type} [DecidableEq Ch]
    (l : List (Except Ea Ch)) (acc s : Finset Ch)
    (h : collect_chunks acc l = Except.ok s) (c : Ch) :
    c ∈ s ↔ c ∈ acc ∨ Except.ok c ∈ l := by
  induction l generalizing acc with
  | nil =>
    simp only [collect_chunks, Except.ok.injEq] at h
    subst h
    simp
  | cons x rest ih =>
    cases x with
    | error e => simp [collect_chunks] at h
    | ok d =>
      simp only [collect_chunks] at h
      rw [ih _ h]
      simp only [Finset.mem_insert, List.mem_cons, Except.ok.injEq]
      tauto

theorem collect_chunks_allOk {Ch Ea : Type} [DecidableEq Ch]
    (l : List (Except Ea Ch)) (acc : Finset Ch) (h : allOk l) :
    ∃ s, collect_chunks acc l = Except.ok s := by
  induction l generalizing acc with
  | nil => exact ⟨acc, rfl⟩
  | cons x rest ih =>
    obtain ⟨c, rfl⟩ := h x (List.mem_cons_self _ _)
    exact ih (insert c acc) (fun y hy => h y (List.mem_cons_of_mem _ hy))

theorem add_owned_archive_timestamp {Cl Ch Ea : Type} [DecidableEq Cl]
    (vc : ValidClients Cl) (a : SyncArchive Cl Ch Ea) :
    (vc.add_owned_archive a).collection_timestamp = vc.collection_timestamp := by
  unfold ValidClients.add_owned_archive
  split <;> rfl

theorem mem_add_owned_archive {Cl Ch Ea : Type} [DecidableEq Cl]
    (vc : ValidClients Cl) (a : SyncArchive Cl Ch Ea) (cl : Cl) :
    cl ∈ (vc.add_owned_archive a).clients ↔
      (vc.collection_timestamp < a.creation_timestamp ∧ cl = a.creator) ∨
        cl ∈ vc.clients := by
  unfold ValidClients.add_owned_archive
  split
  case isTrue h =>
    simp only [SyncArchive.into_creator, Finset.mem_insert]
    tauto
  case isFalse h =>
    constructor
    · exact fun hc => Or.inr hc
    · rintro (⟨hlt, _⟩ | hc)
      · exact absurd hlt h
      · exact hc

theorem scan_archives_ok_mem {Cl Ch Aid F Er Ea : Type} [DecidableEq Cl]
    [DecidableEq Ch] [DecidableEq Aid] (repo : SyncRepository Cl Ch Aid F Er Ea)
    (seen : Finset Aid) (l : List (Except Er Aid)) (newRef : Finset Ch)
    (vc : ValidClients Cl) (N : Finset Ch) (vc' : ValidClients Cl)
    (h : scan_archives repo seen l newRef vc = Except.ok (N, vc')) (c : Ch) :
    c ∈ N ↔ c ∈ newRef ∨ ∃ aid, Except.ok aid ∈ l ∧ aid ∉ seen ∧
      ∃ a, repo.archive aid = Except.ok a ∧ Except.ok c ∈ a.chunks := by
  induction l generalizing newRef vc with
  | nil =>
    simp only [scan_archives, Except.ok.injEq, Prod.mk.injEq] at h
    obtain ⟨rfl, rfl⟩ := h
    simp
  | cons x rest ih =>
    cases x with
    | error e => simp [scan_archives] at h
    | ok aid =>
      by_cases hs : aid ∈ seen
      · simp only [scan_archives, if_pos hs] at h
        rw [ih _ _ h]
        constructor
        · rintro (hc | ⟨aid', hm, hns, ha⟩)
          · exact Or.inl hc
          · exact Or.inr ⟨aid', List.mem_cons_of_mem _ hm, hns, ha⟩
        · rintro (hc | ⟨aid', hm, hns, ha⟩)
          · exact Or.inl hc
          · rcases List.mem_cons.mp hm with heq | hm'
            · obtain rfl := Except.ok.inj heq
              exact absurd hs hns
            · exact Or.inr ⟨aid', hm', hns, ha⟩
      · cases harch : repo.archive aid with
        | error e => simp [scan_archives, hs, harch] at h
        | ok a =>
          cases hcc : collect_chunks newRef a.chunks with
          | error e => simp [scan_archives, hs, harch, hcc] at h
          | ok newRef' =>
            simp only [scan_archives, if_neg hs, harch, hcc] at h
            rw [ih _ _ h, collect_chunks_ok_mem a.chunks newRef newRef' hcc c]
            constructor
            · rintro ((hc | hcm) | ⟨aid', hm, hns, ha⟩)
              · exact Or.inl hc
              · exact Or.inr ⟨aid, List.mem_cons_self _ _, hs, a, harch, hcm⟩
              · exact Or.inr ⟨aid', List.mem_cons_of_mem _ hm, hns, ha⟩
            · rintro (hc | ⟨aid', hm, hns, a', ha', hcm⟩)
              · exact Or.inl (Or.inl hc)
              · rcases List.mem_cons.mp hm with heq | hm'
                · obtain rfl := Except.ok.inj heq
                  rw [harch] at ha'
                  obtain rfl := Except.ok.inj ha'
                  exact Or.inl (Or.inr hcm)
                · exact Or.inr ⟨aid', hm', hns, a', ha', hcm⟩

theorem scan_archives_ok_clients {Cl Ch Aid F Er Ea : Type} [DecidableEq Cl]
    [DecidableEq Ch] [DecidableEq Aid] (repo : SyncRepository Cl Ch Aid F Er Ea)
    (seen : Finset Aid) (l : List (Except Er Aid)) (newRef : Finset Ch)
    (vc : ValidClients Cl) (N : Finset Ch) (vc' : ValidClients Cl)
    (h : scan_archives repo seen l newRef vc = Except.ok (N, vc')) (cl : Cl) :
    cl ∈ vc'.clients ↔ cl ∈ vc.clients ∨ ∃ aid, Except.ok aid ∈ l ∧ aid ∉ seen ∧
      ∃ a, repo.archive aid = Except.ok a ∧ a.creator = cl ∧
        vc.collection_timestamp < a.creation_timestamp := by
  induction l generalizing newRef vc with
  | nil =>
    simp only [scan_archives, Except.ok.injEq, Prod.mk.injEq] at h
    obtain ⟨rfl, rfl⟩ := h
    simp
  | cons x rest ih =>
    cases x with
    | error e => simp [scan_archives] at h
    | ok aid =>
      by_cases hs : aid ∈ seen
      · simp only [scan_archives, if_pos hs] at h
        rw [ih _ _ h]
        constructor
        · rintro (hc | ⟨aid', hm, hns, ha⟩)
          · exact Or.inl hc
          · exact Or.inr ⟨aid', List.mem_cons_of_mem _ hm, hns, ha⟩
        · rintro (hc | ⟨aid', hm, hns, ha⟩)
          · exact Or.inl hc
          · rcases List.mem_cons.mp hm with heq | hm'
            · obtain rfl := Except.ok.inj heq
              exact absurd hs hns
            · exact Or.inr ⟨aid', hm', hns, ha⟩
      · cases harch : repo.archive aid with
        | error e => simp [scan_archives, hs, harch] at h
        | ok a =>
          cases hcc : collect_chunks newRef a.chunks with
          | error e => simp [scan_archives, hs, harch, hcc] at h
          | ok newRef' =>
            simp only [scan_archives, if_neg hs, harch, hcc] at h
            rw [ih _ _ h, mem_add_owned_archive vc a cl,
              add_owned_archive_timestamp vc a]
            constructor
            · rintro ((⟨hlt, rfl⟩ | hc) | ⟨aid', hm, hns, ha⟩)
              · exact Or.inr ⟨aid, List.mem_cons_self _ _, hs, a, harch, rfl, hlt⟩
              · exact Or.inl hc
              · exact Or.inr ⟨aid', List.mem_cons_of_mem _ hm, hns, ha⟩
            · rintro (hc | ⟨aid', hm, hns, a', ha', hcr, hlt⟩)
              · exact Or.inl (Or.inr hc)
              · rcases List.mem_cons.mp hm with heq | hm'
                · obtain rfl := Except.ok.inj heq
                  rw [harch] at ha'
                  obtain rfl := Except.ok.inj ha'
                  exact Or.inl (Or.inl ⟨hlt, hcr.symm⟩)
                · exact Or.inr ⟨aid', hm', hns, a', ha', hcr, hlt⟩

theorem scan_archives_total {Cl Ch Aid F Er Ea : Type} [DecidableEq Cl]
    [DecidableEq Ch] [DecidableEq Aid] (repo : SyncRepository Cl Ch Aid F Er Ea)
    (seen : Finset Aid) (l : List (Except Er Aid)) (newRef : Finset Ch)
    (vc : ValidClients Cl) (ha : allOk l)
    (hfetch : ∀ aid, Except.ok aid ∈ l → aid ∉ seen →
      ∃ a, repo.archive aid = Except.ok a ∧ allOk a.chunks) :
    ∃ N vc', scan_archives repo seen l newRef vc = Except.ok (N, vc') := by
  induction l generalizing newRef vc with
  | nil => exact ⟨newRef, vc, rfl⟩
  | cons x rest ih =>
    obtain ⟨aid, rfl⟩ := ha x (List.mem_cons_self _ _)
    have ha' : allOk rest := fun y hy => ha y (List.mem_cons_of_mem _ hy)
    have hfetch' : ∀ aid', Except.ok aid' ∈ rest → aid' ∉ seen →
        ∃ a, repo.archive aid' = Except.ok a ∧ allOk a.chunks :=
      fun aid' hm hns => hfetch aid' (List.mem_cons_of_mem _ hm) hns
    by_cases hs : aid ∈ seen
    · simp only [scan_archives, if_pos hs]
      exact ih _ _ ha' hfetch'
    · obtain ⟨a, harch, hchunks⟩ := hfetch aid (List.mem_cons_self _ _) hs
      obtain ⟨s, hcc⟩ := collect_chunks_allOk a.chunks newRef hchunks
      simp only [scan_archives, if_neg hs, harch, hcc]
      exact ih _ _ ha' hfetch'

theorem check_clients_uncollectible {Cl Er Ea : Type} [DecidableEq Cl]
    (vc : ValidClients Cl) (l : List (Except Er Cl)) (hok : allOk l) (bad : Cl)
    (hbad : Except.ok bad ∈ l) (hnot : bad ∉ vc.clients) :
    check_clients vc l =
      (some FossilDeletionError.uncollectible : Option (FossilDeletionError Er Ea)) := by
  induction l with
  | nil => exact absurd hbad (List.not_mem_nil _)
  | cons x rest ih =>
    obtain ⟨c, rfl⟩ := hok x (List.mem_cons_self _ _)
    by_cases hc : c ∈ vc.clients
    · simp only [check_clients, if_pos (show vc.contains c from hc)]
      refine ih (fun y hy => hok y (List.mem_cons_of_mem _ hy)) ?_
      rcases List.mem_cons.mp hbad with heq | hm
      · obtain rfl := Except.ok.inj heq
        exact absurd hc hnot
      · exact hm
    · simp only [check_clients, if_neg (show ¬vc.contains c from hc)]

theorem process_fossils_ok_trace {Cl Ch Aid F Er Ea : Type} [DecidableEq Ch]
    (repo : SyncRepository Cl Ch Aid F Er Ea) (newRef : Finset Ch) (fs : List F)
    (h : (process_fossils repo newRef fs).1 =
      (Except.ok () : Except (FossilDeletionError Er Ea) Unit)) :
    (process_fossils repo newRef fs).2 = fs.map (fun f =>
      if repo.original_chunk f ∈ newRef then FossilAction.recover f
      else FossilAction.delete f) := by
  induction fs with
  | nil => rfl
  | cons f rest ih =>
    rcases hrest : process_fossils repo newRef rest with ⟨res, tr⟩
    by_cases hf : repo.original_chunk f ∈ newRef
    · cases hrec : repo.recover_fossil f with
      | error e => simp [process_fossils, if_pos hf, hrec] at h
      | ok v =>
        simp only [process_fossils, if_pos hf, hrec, hrest] at h ⊢
        rw [hrest] at ih
        simp only [List.map_cons, if_pos hf, List.cons.injEq, true_and]
        exact ih h
    · cases hdel : repo.delete_fossil f with
      | error e => simp [process_fossils, if_neg hf, hdel] at h
      | ok v =>
        simp only [process_fossils, if_neg hf, hdel, hrest] at h ⊢
        rw [hrest] at ih
        simp only [List.map_cons, if_neg hf, List.cons.injEq, true_and]
        exact ih h

theorem process_fossils_all_ok {Cl Ch Aid F Er Ea : Type} [DecidableEq Ch]
    (repo : SyncRepository Cl Ch Aid F Er Ea) (newRef : Finset Ch) (fs : List F)
    (hops : ∀ f ∈ fs, repo.recover_fossil f = Except.ok () ∧
      repo.delete_fossil f = Except.ok ()) :
    (process_fossils repo newRef fs).1 =
      (Except.ok () : Except (FossilDeletionError Er Ea) Unit) := by
  induction fs with
  | nil => rfl
  | cons f rest ih =>
    obtain ⟨hrec, hdel⟩ := hops f (List.mem_cons_self _ _)
    have ih' := ih (fun g hg => hops g (List.mem_cons_of_mem _ hg))
    rcases hrest : process_fossils repo newRef rest with ⟨res, tr⟩
    rw [hrest] at ih'
    by_cases hf : repo.original_chunk f ∈ newRef
    · simp only [process_fossils, if_pos hf, hrec, hrest]
      exact ih'
    · simp only [process_fossils, if_neg hf, hdel, hrest]
      exact ih'

/-! ### Claims about `delete_fossils` -/

/-- C2: whenever `delete_fossils` returns `Ok`, it called `recover_fossil`
on exactly those fossils of the collection whose original chunk occurs
among the chunks of some repository archive outside the seen set, and
`delete_fossil` on every other fossil, in the order the fossils are listed:
after success every fossil was either permanently deleted or recovered
because its original chunk reappeared outside the seen set. -/
theorem C2_delete_fossils_ok_trace {Cl Ch Aid F Er Ea : Type} [DecidableEq Cl]
    [DecidableEq Ch] [DecidableEq Aid]
    (collection : FossilCollection F Aid) (repo : SyncRepository Cl Ch Aid F Er Ea)
    (tr : List (FossilAction F))
    (h : delete_fossils collection repo = (Except.ok (), tr)) :
    ∃ N : Finset Ch,
      (∀ c, c ∈ N ↔ ∃ aid, Except.ok aid ∈ repo.archives ∧
        aid ∉ collection.seen_archives ∧
        ∃ a, repo.archive aid = Except.ok a ∧ Except.ok c ∈ a.chunks) ∧
      tr = collection.fossils.map (fun f =>
        if repo.original_chunk f ∈ N then FossilAction.recover f
        else FossilAction.delete f) := by
  cases hscan : scan_archives repo collection.seen_archives.toFinset repo.archives ∅
      (ValidClients.new collection.collection_timestamp) with
  | error e =>
    simp only [delete_fossils, hscan, Prod.mk.injEq] at h
    simp at h
  | ok p =>
    obtain ⟨N, vc⟩ := p
    cases hcheck : (check_clients vc repo.clients :
        Option (FossilDeletionError Er Ea)) with
    | some e =>
      simp only [delete_fossils, hscan, hcheck, Prod.mk.injEq] at h
      simp at h
    | none =>
      simp only [delete_fossils, hscan, hcheck] at h
      have h1 : (process_fossils repo N collection.fossils).1 =
          (Except.ok () : Except (FossilDeletionError Er Ea) Unit) := by
        rw [h]
      have h2 : (process_fossils repo N collection.fossils).2 = tr := by
        rw [h]
      refine ⟨N, ?_, ?_⟩
      · intro c
        rw [scan_archives_ok_mem repo _ _ _ _ N vc hscan c]
        simp only [Finset.not_mem_empty, false_or, List.mem_toFinset]
      · rw [← h2, process_fossils_ok_trace repo N collection.fossils h1]

/-- Witness for C2 at concrete inputs. -/
theorem C2_witness :
    ∃ N : Finset Nat,
      (∀ c, c ∈ N ↔ ∃ aid, Except.ok aid ∈ repoB.archives ∧
        aid ∉ collB.seen_archives ∧
        ∃ a, repoB.archive aid = Except.ok a ∧ Except.ok c ∈ a.chunks) ∧
      [FossilAction.recover 102, FossilAction.delete 104] =
        collB.fossils.map (fun f =>
          if repoB.original_chunk f ∈ N then FossilAction.recover f
          else FossilAction.delete f) :=
  C2_delete_fossils_ok_trace collB repoB
    [FossilAction.recover 102, FossilAction.delete 104] (by decide)

/-- C3: when some client yielded by `clients()` has no archive outside the
seen set created strictly after the collection timestamp (so it is missing
from the witness), and the archive scan and client enumeration themselves
succeed, `delete_fossils` fails with `Uncollectible` and issues no
`recover_fossil` or `delete_fossil` call. -/
theorem C3_uncollectible_no_mutation {Cl Ch Aid F Er Ea : Type} [DecidableEq Cl]
    [DecidableEq Ch] [DecidableEq Aid]
    (collection : FossilCollection F Aid) (repo : SyncRepository Cl Ch Aid F Er Ea)
    (bad : Cl) (ha : allOk repo.archives)
    (hfetch : ∀ aid, Except.ok aid ∈ repo.archives →
      aid ∉ collection.seen_archives →
      ∃ a, repo.archive aid = Except.ok a ∧ allOk a.chunks)
    (hc : allOk repo.clients) (hbad : Except.ok bad ∈ repo.clients)
    (hnowit : ¬∃ aid, Except.ok aid ∈ repo.archives ∧
      aid ∉ collection.seen_archives ∧
      ∃ a, repo.archive aid = Except.ok a ∧ a.creator = bad ∧
        collection.collection_timestamp < a.creation_timestamp) :
    delete_fossils collection repo =
      (Except.error FossilDeletionError.uncollectible, []) := by
  obtain ⟨N, vc', hscan⟩ := scan_archives_total repo
    collection.seen_archives.toFinset repo.archives ∅
    (ValidClients.new collection.collection_timestamp) ha
    (fun aid hm hns => hfetch aid hm (fun hmem => hns (List.mem_toFinset.mpr hmem)))
  have hbadmem : bad ∉ vc'.clients := by
    intro hmem
    rw [scan_archives_ok_clients repo _ _ _ _ N vc' hscan bad] at hmem
    rcases hmem with hmem | ⟨aid, hm, hns, a, harch, hcr, hlt⟩
    · exact absurd hmem (Finset.not_mem_empty bad)
    · exact hnowit ⟨aid, hm, fun hx => hns (List.mem_toFinset.mpr hx),
        a, harch, hcr, hlt⟩
  have hcheck : check_clients vc' repo.clients =
      (some FossilDeletionError.uncollectible : Option (FossilDeletionError Er Ea)) :=
    check_clients_uncollectible vc' repo.clients hc bad hbad hbadmem
  simp only [delete_fossils, hscan, hcheck]

/-- Witness for C3 at concrete inputs: client 7 has no archive outside the
seen set, so deletion of `collC` against `repoA` is uncollectible. -/
theorem C3_witness :
    delete_fossils collC repoA =
      (Except.error FossilDeletionError.uncollectible, []) :=
  C3_uncollectible_no_mutation collC repoA 7 (by decide)
    (by
      intro aid hm hns
      have hm' : Except.ok aid ∈ [Except.ok 0, Except.ok (1 : Nat)] := hm
      simp only [List.mem_cons, List.not_mem_nil, Except.ok.injEq, or_false] at hm'
      rcases hm' with rfl | rfl
      · exact absurd (by decide) hns
      · exact ⟨archB, rfl, by decide⟩)
    (by decide) (by decide)
    (by
      rintro ⟨aid, hm, hns, a, harch, hcr, hlt⟩
      have hm' : Except.ok aid ∈ [Except.ok 0, Except.ok (1 : Nat)] := hm
      simp only [List.mem_cons, List.not_mem_nil, Except.ok.injEq, or_false] at hm'
      rcases hm' with rfl | rfl
      · exact hns (by decide)
      · obtain rfl := Except.ok.inj harch
        exact absurd hcr (by decide))

/-- C10: `delete_fossils` issues no repository mutation before the client
quiescence check passes: under the extensional condition separating the
step-5 errors (every `recover_fossil` / `delete_fossil` call on the
collection's fossils would succeed), any error return — necessarily raised
by archive enumeration, archive fetching, chunk iteration or client
enumeration — comes with an empty call trace, leaving the repository as it
was at entry. -/
theorem C10_error_no_mutation {Cl Ch Aid F Er Ea : Type} [DecidableEq Cl]
    [DecidableEq Ch] [DecidableEq Aid]
    (collection : FossilCollection F Aid) (repo : SyncRepository Cl Ch Aid F Er Ea)
    (e : FossilDeletionError Er Ea) (tr : List (FossilAction F))
    (hops : ∀ f ∈ collection.fossils, repo.recover_fossil f = Except.ok () ∧
      repo.delete_fossil f = Except.ok ())
    (h : delete_fossils collection repo = (Except.error e, tr)) :
    tr = [] := by
  cases hscan : scan_archives repo collection.seen_archives.toFinset repo.archives ∅
      (ValidClients.new collection.collection_timestamp) with
  | error e' =>
    simp only [delete_fossils, hscan, Prod.mk.injEq] at h
    exact h.2.symm
  | ok p =>
    obtain ⟨N, vc⟩ := p
    cases hcheck : (check_clients vc repo.clients :
        Option (FossilDeletionError Er Ea)) with
    | some e' =>
      simp only [delete_fossils, hscan, hcheck, Prod.mk.injEq] at h
      exact h.2.symm
    | none =>
      simp only [delete_fossils, hscan, hcheck] at h
      have hok := process_fossils_all_ok repo N collection.fossils hops
      rw [h] at hok
      simp at hok

/-- Witness for C10 at concrete inputs: a repository whose archive
enumeration fails immediately. -/
theorem C10_witness :
    delete_fossils collC repoErr =
        (Except.error (FossilDeletionError.repository 0), []) ∧
      ([] : List (FossilAction Nat)) = [] :=
  ⟨by decide,
    C10_error_no_mutation collC repoErr (FossilDeletionError.repository 0) []
      (by decide) (by decide)⟩

/-! ### The temporal claim about `collect_fossils` -/

theorem make_fossils_clocked_spec {Ch F Er : Type} (mk : Ch → Except Er F)
    (l : List Ch) (t : Nat) (st : List (F × Nat)) (tEnd : Nat)
    (h : make_fossils_clocked mk l t = Except.ok (st, tEnd)) :
    t ≤ tEnd ∧ (∀ p ∈ st, t ≤ p.2 ∧ p.2 < tEnd) ∧
      map_fossils mk l = Except.ok (st.map Prod.fst) := by
  induction l generalizing t st with
  | nil =>
    simp only [make_fossils_clocked, Except.ok.injEq, Prod.mk.injEq] at h
    obtain ⟨rfl, rfl⟩ := h
    exact ⟨le_refl t, by simp, rfl⟩
  | cons c rest ih =>
    cases hmk : mk c with
    | error e => simp [make_fossils_clocked, hmk] at h
    | ok f =>
      cases hrec : make_fossils_clocked mk rest (t + 1) with
      | error e => simp [make_fossils_clocked, hmk, hrec] at h
      | ok q =>
        obtain ⟨st', tEnd'⟩ := q
        simp only [make_fossils_clocked, hmk, hrec, Except.ok.injEq, Prod.mk.injEq] at h
        obtain ⟨rfl, rfl⟩ := h
        obtain ⟨h1, h2, h3⟩ := ih (t + 1) st' hrec
        refine ⟨le_trans (Nat.le_succ t) h1, ?_, ?_⟩
        · intro p hp
          rcases List.mem_cons.mp hp with rfl | hp'
          · exact ⟨le_refl t, lt_of_lt_of_le (Nat.lt_succ_self t) h1⟩
          · obtain ⟨ha, hb⟩ := h2 p hp'
            exact ⟨le_trans (Nat.le_succ t) ha, hb⟩
        · simp [map_fossils, hmk, h3]

/-- C7: under the logical clock, a successful `collect_fossils` run returns
a collection whose timestamp is the clock value read after the last
`make_fossil` call completed: it is strictly greater than the instant at
which any fossil of the collection was created, and the run agrees with
`collect_fossils` evaluated at that clock sample. -/
theorem C7_timestamp_after_fossilisation {Cl Ch Aid F Er Ea : Type} [DecidableEq Ch]
    [LinearOrder Ch] (kept : List (Aid × SyncArchive Cl Ch Ea))
    (pruned : List (SyncArchive Cl Ch Ea)) (repo : SyncRepository Cl Ch Aid F Er Ea)
    (clock : Nat) (coll : FossilCollection F Aid) (stamped : List (F × Nat))
    (h : collect_fossils_clocked kept pruned repo clock = Except.ok (coll, stamped)) :
    (∀ p ∈ stamped, p.2 < coll.collection_timestamp) ∧
      coll.fossils = stamped.map Prod.fst ∧
      collect_fossils kept pruned repo coll.collection_timestamp = Except.ok coll := by
  rcases hkept : collect_kept FossilCollector.new ([] : List Aid) kept with ⟨col, seen, err⟩
  cases err with
  | some e => simp [collect_fossils_clocked, hkept] at h
  | none =>
    rcases hprune : prune_all col pruned with ⟨col', err'⟩
    cases err' with
    | some e => simp [collect_fossils_clocked, hkept, hprune] at h
    | none =>
      cases hmf : make_fossils_clocked repo.make_fossil col'.fossil_candidates clock with
      | error e => simp [collect_fossils_clocked, hkept, hprune, hmf] at h
      | ok q =>
        obtain ⟨st, tEnd⟩ := q
        simp only [collect_fossils_clocked, hkept, hprune, hmf, Except.ok.injEq,
          Prod.mk.injEq] at h
        obtain ⟨rfl, rfl⟩ := h
        obtain ⟨_, h2, h3⟩ := make_fossils_clocked_spec repo.make_fossil
          col'.fossil_candidates clock st tEnd hmf
        refine ⟨fun p hp => (h2 p hp).2, rfl, ?_⟩
        simp only [collect_fossils, hkept, hprune, h3, FossilCollection.with_timestamp]

/-- Witness for C7 at concrete inputs. -/
theorem C7_witness :
    (∀ p ∈ [((103 : Nat), (10 : Nat))],
        p.2 < (FossilCollection.mk 11 [103] [0] : FossilCollection Nat Nat).collection_timestamp) ∧
      (FossilCollection.mk 11 [103] ([0] : List Nat)).fossils =
        [((103 : Nat), (10 : Nat))].map Prod.fst ∧
      collect_fossils [(0, archA)] [archB] repoA
          (FossilCollection.mk 11 [103] ([0] : List Nat)).collection_timestamp =
        Except.ok (FossilCollection.mk 11 [103] [0]) :=
  C7_timestamp_after_fossilisation [(0, archA)] [archB] repoA 10
    (FossilCollection.mk 11 [103] [0]) [(103, 10)] (by decide)
